import Mathlib

/-!
Shallow embedding of `src/lxd-backup.go` (gmelchett/lxd-backup).

Go maps keyed by strings are modeled as association lists together with
`mapUpd`, which models the Go assignment `m[k] = v` (overwriting the
existing binding when present), and `List.lookup`, which models map access.
Tar archives are modeled as lists of members carrying the header fields the
program inspects (name, type flag, declared size) plus the payload bytes.
The md5 digest is an external crypto primitive and is passed around as an
abstract function from payload bytes to hex strings; no claim depends on
its definition.  The filesystem is modeled as an association list from
paths to file contents; `log.Fatalf` (which exits the process, skipping
deferred closes) is modeled as an `Except.error` carrying the filesystem
state at the moment of exit.
-/

namespace LxdBackup

/-- Models the Go assignment `m[k] = v` on a string-keyed map: the first
binding of `k` is overwritten when present, otherwise the binding is
appended. -/
def mapUpd {β : Type} : List (String × β) → String → β → List (String × β)
  | [], k, v => [(k, v)]
  | p :: m, k, v => if p.1 == k then (k, v) :: m else p :: mapUpd m k v

/-- A fingerprint table: Go's `map[string]string` from member path to hex
digest. -/
abbrev Table := List (String × String)

/-- The association list has pairwise distinct keys (always true of a list
that represents a Go map). -/
def NodupKeys {β : Type} (l : List (String × β)) : Prop := (l.map Prod.fst).Nodup

theorem lookup_mapUpd {β : Type} (m : List (String × β)) (k k' : String) (v : β) :
    List.lookup k' (mapUpd m k v) = if k' = k then some v else List.lookup k' m := by
  induction m with
  | nil =>
    by_cases h : k' = k
    · simp only [mapUpd, List.lookup, beq_iff_eq.mpr h, if_pos h]
    · simp only [mapUpd, List.lookup, beq_eq_false_iff_ne.mpr h, if_neg h]
  | cons p m ih =>
    by_cases hpk : p.1 = k
    · by_cases hk : k' = k
      · simp only [mapUpd, beq_iff_eq.mpr hpk, if_pos, List.lookup,
          beq_iff_eq.mpr hk, if_pos hk]
      · have hkp : ¬(k' = p.1) := fun h => hk (h.trans hpk)
        simp only [mapUpd, beq_iff_eq.mpr hpk, if_pos, List.lookup,
          beq_eq_false_iff_ne.mpr hk, beq_eq_false_iff_ne.mpr hkp, if_neg hk]
    · by_cases hkp : k' = p.1
      · have hk : ¬(k' = k) := fun h => hpk (hkp ▸ h)
        simp only [mapUpd, beq_eq_false_iff_ne.mpr hpk, if_neg, List.lookup,
          beq_iff_eq.mpr hkp, if_neg hk, Bool.false_eq_true]
      · simp only [mapUpd, beq_eq_false_iff_ne.mpr hpk, if_neg, List.lookup,
          beq_eq_false_iff_ne.mpr hkp, ih, Bool.false_eq_true]

theorem lookup_eq_some_of_mem {β : Type} {l : List (String × β)} {k : String} {v : β}
    (hnd : NodupKeys l) (hm : (k, v) ∈ l) : List.lookup k l = some v := by
  induction l with
  | nil => cases hm
  | cons p l ih =>
    rcases List.mem_cons.mp hm with h | h
    · subst h
      simp only [List.lookup, beq_self_eq_true]
    · have hne : k ≠ p.1 := by
        intro he
        have : p.1 ∈ l.map Prod.fst := List.mem_map.mpr ⟨(k, v), h, by simp [he]⟩
        exact (List.nodup_cons.mp hnd).1 this
      simp only [List.lookup, beq_eq_false_iff_ne.mpr hne]
      exact ih (List.nodup_cons.mp hnd).2 h

theorem mem_of_lookup_eq_some {β : Type} {l : List (String × β)} {k : String} {v : β}
    (h : List.lookup k l = some v) : (k, v) ∈ l := by
  induction l with
  | nil => simp [List.lookup] at h
  | cons p l ih =>
    by_cases hk : k = p.1
    · simp only [List.lookup, beq_iff_eq.mpr hk, Option.some.injEq] at h
      exact List.mem_cons.mpr (Or.inl (by rw [← h, Prod.ext_iff]; exact ⟨hk, rfl⟩))
    · simp only [List.lookup, beq_eq_false_iff_ne.mpr hk] at h
      exact List.mem_cons.mpr (Or.inr (ih h))

theorem lookup_isSome_of_mem {β : Type} {l : List (String × β)} {k : String} {v : β}
    (hm : (k, v) ∈ l) : (List.lookup k l).isSome := by
  induction l with
  | nil => cases hm
  | cons p l ih =>
    by_cases hk : k = p.1
    · simp only [List.lookup, beq_iff_eq.mpr hk, Option.isSome_some]
    · rcases List.mem_cons.mp hm with h | h
      · exact absurd (congrArg Prod.fst h) hk
      · simp only [List.lookup, beq_eq_false_iff_ne.mpr hk]
        exact ih h

theorem mem_fst_filter_iff {β : Type} (l : List (String × β)) (f : String × β → Bool)
    (hnd : NodupKeys l) (p : String) :
    p ∈ (l.filter f).map Prod.fst ↔ ∃ d, List.lookup p l = some d ∧ f (p, d) = true := by
  constructor
  · intro hp
    rcases List.mem_map.mp hp with ⟨q, hq, hq1⟩
    rcases List.mem_filter.mp hq with ⟨hql, hf⟩
    refine ⟨q.2, ?_, ?_⟩
    · have hmem : (q.1, q.2) ∈ l := by simpa using hql
      rw [hq1] at hmem
      exact lookup_eq_some_of_mem hnd hmem
    · have hf' : f (q.1, q.2) = true := by simpa using hf
      rw [hq1] at hf'
      exact hf'
  · rintro ⟨d, hl, hf⟩
    exact List.mem_map.mpr ⟨(p, d), List.mem_filter.mpr ⟨mem_of_lookup_eq_some hl, hf⟩, rfl⟩

/-- The diff computation of `main` (src/lxd-backup.go lines 859-878): one
pass over the baseline `quarterSums` collecting changed paths (present in
`sums` with a different digest) and removed paths (absent from `sums`),
then one pass over the current `sums` collecting added paths (absent from
`quarterSums`).  The Go code interleaves the changed/removed collection in
a single loop over the baseline map; two filters over the same list are
the order-insensitive pure rendering of that loop. -/
def diffChangedRemoved (quarterSums sums : Table) : List String × List String :=
  let changedOld := (quarterSums.filter (fun q =>
      match List.lookup q.1 sums with
      | some cur => cur != q.2
      | none => false)).map Prod.fst
  let removed := (quarterSums.filter (fun q => (List.lookup q.1 sums).isNone)).map Prod.fst
  let added := (sums.filter (fun q => (List.lookup q.1 quarterSums).isNone)).map Prod.fst
  (changedOld ++ added, removed)

example :
    diffChangedRemoved [("a", "h1"), ("b", "h2")] [("a", "h1"), ("b", "h3"), ("c", "h4")]
      = (["b", "c"], []) := by decide

example : diffChangedRemoved [("a", "h1")] [] = ([], ["a"]) := by decide

/-- C1: the diff classifies every path so that changed-or-added is exactly
the paths present in the current table whose digest is absent from or
differs from the baseline, removed is exactly the paths present in the
baseline and absent from the current table, and the two sets are
disjoint. -/
theorem diff_spec (B C : Table) (hB : NodupKeys B) (hC : NodupKeys C) (p : String) :
    (p ∈ (diffChangedRemoved B C).1 ↔
        ∃ d, List.lookup p C = some d ∧ List.lookup p B ≠ some d)
    ∧ (p ∈ (diffChangedRemoved B C).2 ↔
        (List.lookup p B).isSome ∧ List.lookup p C = none)
    ∧ ¬(p ∈ (diffChangedRemoved B C).1 ∧ p ∈ (diffChangedRemoved B C).2) := by
  have e1 := mem_fst_filter_iff B (fun q =>
      match List.lookup q.1 C with
      | some cur => cur != q.2
      | none => false) hB p
  have e2 := mem_fst_filter_iff B (fun q => (List.lookup q.1 C).isNone) hB p
  have e3 := mem_fst_filter_iff C (fun q => (List.lookup q.1 B).isNone) hC p
  simp only [diffChangedRemoved, List.mem_append]
  rw [e1, e2, e3]
  rcases hB' : List.lookup p B with _ | dB <;> rcases hC' : List.lookup p C with _ | dC
  · simp [hB', hC']
  · simp [hB', hC']
  · simp [hB', hC']
  · simp only [hB', hC', bne_iff_ne]
    simp
    exact ne_comm

/-- Witness for C1: the diff of the spec's scenario tables, evaluated at
path `b` (a changed path), discharging both no-duplicate-key
hypotheses of `diff_spec`. -/
theorem diff_spec_witness :
    ("b" ∈ (diffChangedRemoved [("a", "h1"), ("b", "h2")]
        [("a", "h1"), ("b", "h3"), ("c", "h4")]).1 ↔
      ∃ d, List.lookup "b" [("a", "h1"), ("b", "h3"), ("c", "h4")] = some d ∧
        List.lookup "b" [("a", "h1"), ("b", "h2")] ≠ some d)
    ∧ ("b" ∈ (diffChangedRemoved [("a", "h1"), ("b", "h2")]
        [("a", "h1"), ("b", "h3"), ("c", "h4")]).2 ↔
      (List.lookup "b" [("a", "h1"), ("b", "h2")]).isSome ∧
        List.lookup "b" [("a", "h1"), ("b", "h3"), ("c", "h4")] = none)
    ∧ ¬("b" ∈ (diffChangedRemoved [("a", "h1"), ("b", "h2")]
        [("a", "h1"), ("b", "h3"), ("c", "h4")]).1 ∧
        "b" ∈ (diffChangedRemoved [("a", "h1"), ("b", "h2")]
        [("a", "h1"), ("b", "h3"), ("c", "h4")]).2) :=
  diff_spec [("a", "h1"), ("b", "h2")] [("a", "h1"), ("b", "h3"), ("c", "h4")]
    (by unfold NodupKeys; decide) (by unfold NodupKeys; decide) "b"

/-! ## BaselineStore: `writeFileData` and `loadFileData`

The fingerprint file is modeled at the granularity of parsed CSV records
(`List (List String)`); the byte-level CSV encoding is the Go standard
library's and is not re-modeled.  `encoding/csv`'s `Reader` with the
default `FieldsPerRecord = 0` takes the expected field count from the
first record and fails with `ErrFieldCount` when a later record differs.
-/

/-- Failure modes of `loadFileData`: `fieldCountMismatch` models
`csv.Reader.ReadAll` returning `ErrFieldCount` (record count differs from
the first record's), and `indexOutOfRange` models the Go runtime panic on
`l[0]`/`l[1]` when the (uniform) record width is below two. -/
inductive LoadError where
  | fieldCountMismatch
  | indexOutOfRange
deriving DecidableEq

/-- Go's `csv.Reader.ReadAll` field-count validation with the default
`FieldsPerRecord = 0`: every record must have as many fields as the first
record. -/
def csvReadAllOK : List (List String) → Bool
  | [] => true
  | r0 :: rest => (r0 :: rest).all (fun r => r.length == r0.length)

/-- The map-building loop of `loadFileData` (src/lxd-backup.go lines
714-717): `checksums[l[0]] = l[1]` for each record `l`. -/
def buildChecksums : List (List String) → Table → Except LoadError Table
  | [], checksums => .ok checksums
  | l :: rest, checksums =>
    match l with
    | k :: v :: _ => buildChecksums rest (mapUpd checksums k v)
    | _ => .error .indexOutOfRange

/-- `loadFileData` (src/lxd-backup.go lines 700-719) on the parsed records
of the fingerprint file. -/
def loadFileData (records : List (List String)) : Except LoadError Table :=
  if csvReadAllOK records then buildChecksums records [] else .error .fieldCountMismatch

/-- `writeFileData` (src/lxd-backup.go lines 675-698): the keys of the
table are sorted (`sort.Strings`; UTF-8 byte order agrees with the
codepoint order used here) and emitted as two-field records
`(path, digest)`.  `fd[name]` yields Go's zero value `""` when the key is
absent, which cannot happen for the keys just extracted. -/
def writeFileData (fd : Table) : List (List String) :=
  let fdnames := List.insertionSort (fun a b => a.data ≤ b.data) (fd.map Prod.fst)
  fdnames.map (fun n => [n, (List.lookup n fd).getD ""])

example : writeFileData [("b", "h2"), ("a", "h1")] = [["a", "h1"], ["b", "h2"]] := by decide

example : loadFileData [["a", "h1"], ["b", "h2"]] = .ok [("a", "h1"), ("b", "h2")] := rfl

theorem lookup_append {β : Type} (l₁ l₂ : List (String × β)) (k : String) :
    List.lookup k (l₁ ++ l₂) =
      match List.lookup k l₁ with
      | some v => some v
      | none => List.lookup k l₂ := by
  induction l₁ with
  | nil => simp [List.lookup]
  | cons p l ih =>
    by_cases hk : k = p.1
    · simp only [List.cons_append, List.lookup, beq_iff_eq.mpr hk]
    · simp only [List.cons_append, List.lookup, beq_eq_false_iff_ne.mpr hk]
      exact ih

theorem mapUpd_of_lookup_none {β : Type} {m : List (String × β)} {k : String} (v : β)
    (h : List.lookup k m = none) : mapUpd m k v = m ++ [(k, v)] := by
  induction m with
  | nil => rfl
  | cons p m ih =>
    by_cases hk : k = p.1
    · simp [List.lookup, beq_iff_eq.mpr hk] at h
    · simp only [List.lookup, beq_eq_false_iff_ne.mpr hk] at h
      have hpk : (p.1 == k) = false := beq_eq_false_iff_ne.mpr (fun he => hk he.symm)
      simp [mapUpd, hpk, ih h]

theorem foldl_mapUpd_of_nodup {β : Type} (l : List (String × β)) (acc : List (String × β))
    (hd : NodupKeys l) (hdisj : ∀ q ∈ l, List.lookup q.1 acc = none) :
    l.foldl (fun m q => mapUpd m q.1 q.2) acc = acc ++ l := by
  induction l generalizing acc with
  | nil => simp
  | cons q l ih =>
    have hq : List.lookup q.1 acc = none := hdisj q (by simp)
    rw [List.foldl_cons, mapUpd_of_lookup_none q.2 hq]
    rw [ih (acc ++ [(q.1, q.2)]) (List.nodup_cons.mp hd).2 ?_]
    · simp
    · intro q' hq'
      rw [lookup_append]
      rcases hl : List.lookup q'.1 acc with _ | v
      · have hne : q'.1 ≠ q.1 := by
          intro he
          exact (List.nodup_cons.mp hd).1
            (he ▸ List.mem_map.mpr ⟨q', hq', rfl⟩)
        simp [List.lookup, beq_eq_false_iff_ne.mpr hne]
      · exact absurd (hdisj q' (List.mem_cons.mpr (Or.inr hq'))) (by simp [hl])

theorem buildChecksums_pairs (l : List (String × String)) (acc : Table) :
    buildChecksums (l.map (fun q => [q.1, q.2])) acc
      = .ok (l.foldl (fun m q => mapUpd m q.1 q.2) acc) := by
  induction l generalizing acc with
  | nil => rfl
  | cons q l ih => simp only [List.map_cons, buildChecksums, List.foldl_cons, ih]

theorem csvOK_of_pairs (l : List (List String)) (h : ∀ r ∈ l, r.length = 2) :
    csvReadAllOK l = true := by
  cases l with
  | nil => rfl
  | cons r0 rest =>
    have h0 : r0.length = 2 := h r0 (by simp)
    simp only [csvReadAllOK, List.all_eq_true]
    intro r hr
    rw [beq_iff_eq, h r hr, h0]

theorem nodupKeys_of_perm {β : Type} {l l' : List (String × β)} (hperm : l.Perm l')
    (hnd : NodupKeys l) : NodupKeys l' :=
  ((hperm.map Prod.fst).nodup_iff).mp hnd

theorem lookup_eq_of_perm {β : Type} {l l' : List (String × β)} (hperm : l.Perm l')
    (hnd : NodupKeys l) (k : String) : List.lookup k l = List.lookup k l' := by
  rcases h : List.lookup k l with _ | v
  · rcases h' : List.lookup k l' with _ | v'
    · rfl
    · have hm : (k, v') ∈ l := hperm.mem_iff.mpr (mem_of_lookup_eq_some h')
      have := lookup_isSome_of_mem hm
      rw [h] at this
      simp at this
  · have hm : (k, v) ∈ l' := hperm.mem_iff.mp (mem_of_lookup_eq_some h)
    exact (lookup_eq_some_of_mem (nodupKeys_of_perm hperm hnd) hm).symm

/-- C2: persisting a fingerprint table with `writeFileData` and loading it
back with `loadFileData` succeeds and yields the table back exactly (the
same bindings up to map-internal ordering, hence the same map). -/
theorem writeFileData_loadFileData_roundTrip (fd : Table) (h : NodupKeys fd) :
    ∃ t, loadFileData (writeFileData fd) = .ok t ∧ t.Perm fd ∧
      ∀ k, List.lookup k t = List.lookup k fd := by
  have hrec : writeFileData fd
      = ((List.insertionSort (fun a b => a.data ≤ b.data) (fd.map Prod.fst)).map
          (fun n => (n, (List.lookup n fd).getD ""))).map (fun q => [q.1, q.2]) := by
    simp [writeFileData, List.map_map]
  set names := List.insertionSort (α := String) (fun a b => a.data ≤ b.data)
    (fd.map Prod.fst) with hnames
  set pairs := names.map (fun n => (n, (List.lookup n fd).getD "")) with hpairs
  have hperm0 : names.Perm (fd.map Prod.fst) := List.perm_insertionSort _ _
  have hpairsPerm : pairs.Perm ((fd.map Prod.fst).map
      (fun n => (n, (List.lookup n fd).getD ""))) := hperm0.map _
  have hfd : (fd.map Prod.fst).map (fun n => (n, (List.lookup n fd).getD "")) = fd := by
    rw [List.map_map]
    have : ∀ q ∈ fd, ((fun n => (n, (List.lookup n fd).getD "")) ∘ Prod.fst) q = id q := by
      intro q hq
      have : List.lookup q.1 fd = some q.2 :=
        lookup_eq_some_of_mem h (by simpa using hq)
      simp [this]
    rw [List.map_congr_left this, List.map_id]
  have hpairsPermFd : pairs.Perm fd := hfd ▸ hpairsPerm
  have hcsv : csvReadAllOK (writeFileData fd) = true := by
    rw [hrec]
    exact csvOK_of_pairs _ (by
      intro r hr
      rcases List.mem_map.mp hr with ⟨q, _, hq1⟩
      simp [← hq1])
  have hnodupPairs : NodupKeys pairs := nodupKeys_of_perm hpairsPermFd.symm h
  have hbuild : buildChecksums (writeFileData fd) [] = .ok pairs := by
    rw [hrec, buildChecksums_pairs]
    rw [foldl_mapUpd_of_nodup pairs [] hnodupPairs (by intro q _; rfl)]
    simp
  refine ⟨pairs, ?_, hpairsPermFd, fun k => lookup_eq_of_perm hpairsPermFd hnodupPairs k⟩
  rw [loadFileData, if_pos hcsv]
  exact hbuild

/-- Witness for C2: the round trip applied to a concrete two-entry table,
discharging the no-duplicate-path hypothesis. -/
theorem writeFileData_loadFileData_roundTrip_witness :
    ∃ t, loadFileData (writeFileData [("b", "h2"), ("a", "h1")]) = .ok t ∧
      t.Perm [("b", "h2"), ("a", "h1")] ∧
      ∀ k, List.lookup k t = List.lookup k [("b", "h2"), ("a", "h1")] :=
  writeFileData_loadFileData_roundTrip [("b", "h2"), ("a", "h1")]
    (by unfold NodupKeys; decide)

/-- C8 counterexample: a fingerprint file whose records all carry three
fields loads successfully, because Go's csv reader only enforces a field
count uniform with the first record; this refutes the claim that
`loadFileData` fails whenever some record does not have exactly two
fields. -/
theorem loadFileData_three_fields_ok :
    loadFileData [["a", "b", "c"], ["d", "e", "f"]] = .ok [("a", "b"), ("d", "e")]
    ∧ ¬(∀ r ∈ [["a", "b", "c"], ["d", "e", "f"]], r.length = 2) :=
  ⟨rfl, by decide⟩

theorem buildChecksums_ok (l : List (List String)) (acc : Table)
    (h : ∀ r ∈ l, 2 ≤ r.length) : ∃ t, buildChecksums l acc = .ok t := by
  induction l generalizing acc with
  | nil => exact ⟨acc, rfl⟩
  | cons r rest ih =>
    rcases r with _ | ⟨k, _ | ⟨v, r'⟩⟩
    · have := h [] (by simp)
      simp at this
    · have := h [k] (by simp)
      simp at this
    · exact ih (mapUpd acc k v) (fun r hr => h r (by simp [hr]))

theorem buildChecksums_err_short (r0 : List String) (rest : List (List String)) (acc : Table)
    (h : r0.length < 2) : buildChecksums (r0 :: rest) acc = .error .indexOutOfRange := by
  rcases r0 with _ | ⟨k, _ | ⟨v, r'⟩⟩
  · rfl
  · rfl
  · simp at h
    omega

/-- C8 amended: `loadFileData` succeeds exactly when the record list is
empty, or every record has the same number of fields as the first record
and that shared count is at least two.  In particular uniformly three-field
files are accepted (the extra fields are ignored) and uniformly one-field
files crash with an index panic rather than failing with a clean record
error. -/
theorem loadFileData_ok_iff (records : List (List String)) :
    (∃ t, loadFileData records = .ok t) ↔
      (∀ r ∈ records, r.length = (records.headD []).length) ∧
        (records ≠ [] → 2 ≤ (records.headD []).length) := by
  cases records with
  | nil =>
    constructor
    · intro _
      exact ⟨by simp, by simp⟩
    · intro _
      exact ⟨[], rfl⟩
  | cons r0 rest =>
    constructor
    · rintro ⟨t, ht⟩
      rw [loadFileData] at ht
      by_cases hcsv : csvReadAllOK (r0 :: rest) = true
      · rw [if_pos hcsv] at ht
        refine ⟨?_, fun _ => ?_⟩
        · intro r hr
          exact beq_iff_eq.mp ((List.all_eq_true.mp hcsv) r hr)
        · by_contra h2
          rw [buildChecksums_err_short r0 rest []
            (by simpa using Nat.lt_of_not_le (fun hle => h2 hle))] at ht
          cases ht
      · rw [if_neg hcsv] at ht
        cases ht
    · rintro ⟨hall, h2⟩
      have hcsv : csvReadAllOK (r0 :: rest) = true := by
        simp only [csvReadAllOK, List.all_eq_true]
        intro r hr
        rw [beq_iff_eq]
        exact hall r hr
      rw [loadFileData, if_pos hcsv]
      exact buildChecksums_ok _ _ (fun r hr => by
        rw [hall r hr]
        exact h2 (by simp))

/-! ## Fingerprinter: `fetchFileDataFromTar` -/

/-- One tar archive member: the header fields the program inspects
(`hdr.Name`, `hdr.Typeflag`, `hdr.Size`) plus the payload bytes the tar
reader delivers for the member.  Declared sizes are non-negative in a tar
header and are modeled as naturals; a malformed archive is modeled by a
payload whose length differs from the declared size. -/
structure TarMember where
  name : String
  typeflag : Nat
  size : Nat
  content : List Nat
deriving DecidableEq, Repr

/-- `tar.TypeReg`, the ASCII character '0'. -/
def tarTypeReg : Nat := 48

/-- The fatal error "Failed to read all data of file ... Wanted %d got
%d": the bytes consumed for a regular member differ from the header's
declared size. -/
structure TruncatedMemberError where
  path : String
  expected : Nat
  actual : Nat
deriving DecidableEq, Repr

/-- The member loop of `fetchFileDataFromTar` (src/lxd-backup.go lines
557-581): non-regular members are skipped without being read; a regular
member whose payload byte count differs from the declared size aborts with
a truncation error; otherwise the digest of the member's bytes is recorded
under its path (`fd[hdr.Name] = digest`). -/
def fetchGo (digest : List Nat → String) :
    List TarMember → Table → Except TruncatedMemberError Table
  | [], fd => .ok fd
  | m :: rest, fd =>
    if m.typeflag ≠ tarTypeReg then fetchGo digest rest fd
    else if m.content.length ≠ m.size then .error ⟨m.name, m.size, m.content.length⟩
    else fetchGo digest rest (mapUpd fd m.name (digest m.content))

/-- `fetchFileDataFromTar` (src/lxd-backup.go lines 533-587) on the member
list of the source archive, starting from the empty map `fd`. -/
def fetchFileDataFromTar (digest : List Nat → String) (archive : List TarMember) :
    Except TruncatedMemberError Table :=
  fetchGo digest archive []

/-- A member that trips the truncation check: regular, with a payload
length differing from the declared size. -/
def truncB (m : TarMember) : Bool :=
  m.typeflag == tarTypeReg && m.content.length != m.size

/-- One iteration of the member loop on the success path. -/
def fetchStep (digest : List Nat → String) (fd : Table) (m : TarMember) : Table :=
  if m.typeflag == tarTypeReg then mapUpd fd m.name (digest m.content) else fd

theorem fetchGo_ok (digest : List Nat → String) (l : List TarMember) (fd : Table)
    (h : l.find? truncB = none) :
    fetchGo digest l fd = .ok (l.foldl (fetchStep digest) fd) := by
  induction l generalizing fd with
  | nil => rfl
  | cons m rest ih =>
    have hm : truncB m = false ∧ rest.find? truncB = none := by
      rcases hp : truncB m with _ | _
      · rw [List.find?_cons, hp] at h
        exact ⟨rfl, h⟩
      · rw [List.find?_cons, hp] at h
        cases h
    by_cases hreg : m.typeflag = tarTypeReg
    · have hlen : m.content.length = m.size := by
        have := hm.1
        rw [truncB, beq_iff_eq.mpr hreg, Bool.true_and, bne_eq_false_iff_eq] at this
        exact this
      rw [fetchGo, if_neg (by simpa using hreg), if_neg (by simp [hlen])]
      rw [List.foldl_cons, fetchStep, if_pos (beq_iff_eq.mpr hreg)]
      exact ih _ hm.2
    · rw [fetchGo, if_pos (by simpa using hreg)]
      rw [List.foldl_cons, fetchStep, if_neg (by simpa using hreg)]
      exact ih _ hm.2

theorem fetchGo_err (digest : List Nat → String) (l : List TarMember) (fd : Table)
    (m : TarMember) (h : l.find? truncB = some m) :
    fetchGo digest l fd = .error ⟨m.name, m.size, m.content.length⟩ := by
  induction l generalizing fd with
  | nil => cases h
  | cons a rest ih =>
    rcases hp : truncB a with _ | _
    · rw [List.find?_cons, hp] at h
      by_cases hreg : a.typeflag = tarTypeReg
      · have hlen : a.content.length = a.size := by
          have := hp
          rw [truncB, beq_iff_eq.mpr hreg, Bool.true_and, bne_eq_false_iff_eq] at this
          exact this
        rw [fetchGo, if_neg (by simpa using hreg), if_neg (by simp [hlen])]
        exact ih _ h
      · rw [fetchGo, if_pos (by simpa using hreg)]
        exact ih _ h
    · rw [List.find?_cons, hp] at h
      have hma : m = a := by
        cases h
        rfl
      subst hma
      have hreg : m.typeflag = tarTypeReg := by
        have := hp
        rw [truncB, Bool.and_eq_true, beq_iff_eq] at this
        exact this.1
      have hlen : m.content.length ≠ m.size := by
        have := hp
        rw [truncB, Bool.and_eq_true, bne_iff_ne] at this
        exact this.2
      rw [fetchGo, if_neg (by simpa using hreg), if_pos (by simpa using hlen)]

theorem lookup_foldl_fetchStep (digest : List Nat → String) (l : List TarMember)
    (fd : Table) (p : String) :
    List.lookup p (l.foldl (fetchStep digest) fd) =
      match l.reverse.find? (fun m => m.typeflag == tarTypeReg && m.name == p) with
      | some m => some (digest m.content)
      | none => List.lookup p fd := by
  induction l using List.reverseRecOn generalizing fd with
  | nil => rfl
  | append_singleton xs m ih =>
    rw [List.foldl_append, List.foldl_cons, List.foldl_nil, List.reverse_append]
    simp only [List.reverse_cons, List.reverse_nil, List.nil_append, List.singleton_append,
      List.find?_cons]
    rcases hp : (m.typeflag == tarTypeReg && m.name == p) with _ | _
    · by_cases hreg : m.typeflag = tarTypeReg
      · have hname : m.name ≠ p := by
          intro he
          simp [hreg, he] at hp
        rw [fetchStep, if_pos (beq_iff_eq.mpr hreg), lookup_mapUpd]
        rw [if_neg (fun he => hname he.symm)]
        exact ih fd
      · rw [fetchStep, if_neg (by simpa using hreg)]
        exact ih fd
    · have hreg : m.typeflag = tarTypeReg := by
        rw [Bool.and_eq_true, beq_iff_eq] at hp
        exact hp.1
      have hname : m.name = p := by
        rw [Bool.and_eq_true, beq_iff_eq, beq_iff_eq] at hp
        exact hp.2
      rw [fetchStep, if_pos (beq_iff_eq.mpr hreg), lookup_mapUpd, if_pos hname.symm]

/-- C9: fingerprinting fails with a truncation error naming the first
regular member whose payload byte count differs from its declared size,
together with the expected and actual counts, and only then; on success
(no such member) the table maps each regular member's path to the digest
of its bytes — exactly one entry per regular member under the archive
invariant of unique member paths — and a path naming no regular member has
no entry, so non-regular members contribute nothing. -/
theorem fetchFileDataFromTar_spec (digest : List Nat → String) (archive : List TarMember) :
    (∀ m, archive.find? truncB = some m →
        fetchFileDataFromTar digest archive = .error ⟨m.name, m.size, m.content.length⟩)
    ∧ (archive.find? truncB = none →
        ∃ t, fetchFileDataFromTar digest archive = .ok t
          ∧ ((archive.map TarMember.name).Nodup →
              ∀ m ∈ archive, m.typeflag = tarTypeReg →
                List.lookup m.name t = some (digest m.content))
          ∧ (∀ p, (∀ m ∈ archive, m.typeflag = tarTypeReg → m.name ≠ p) →
              List.lookup p t = none)) := by
  constructor
  · intro m hm
    exact fetchGo_err digest archive [] m hm
  · intro hnone
    refine ⟨archive.foldl (fetchStep digest) [], fetchGo_ok digest archive [] hnone, ?_, ?_⟩
    · intro hnodup m hmem hreg
      rw [lookup_foldl_fetchStep]
      rcases hf : archive.reverse.find? (fun m' => m'.typeflag == tarTypeReg
          && m'.name == m.name) with _ | m'
      · exfalso
        rw [List.find?_eq_none] at hf
        exact hf m (List.mem_reverse.mpr hmem) (by simp [hreg])
      · have hp := List.find?_some hf
        have hmem' : m' ∈ archive := List.mem_reverse.mp (List.mem_of_find?_eq_some hf)
        rw [Bool.and_eq_true, beq_iff_eq, beq_iff_eq] at hp
        have hm'm : m' = m := List.inj_on_of_nodup_map hnodup hmem' hmem hp.2
        rw [hf, hm'm]
    · intro p hp
      rw [lookup_foldl_fetchStep]
      rcases hf : archive.reverse.find? (fun m' => m'.typeflag == tarTypeReg
          && m'.name == p) with _ | m'
      · rw [hf]
        rfl
      · exfalso
        have hpred := List.find?_some hf
        have hmem' : m' ∈ archive := List.mem_reverse.mp (List.mem_of_find?_eq_some hf)
        rw [Bool.and_eq_true, beq_iff_eq, beq_iff_eq] at hpred
        exact hp m' hmem' hpred.1 hpred.2

/-- Witness for C9: a two-member archive (one regular, one directory)
fingerprints successfully, and an archive with a short payload fails with
the truncation error; both hypotheses of `fetchFileDataFromTar_spec` are
discharged on concrete archives. -/
theorem fetchFileDataFromTar_spec_witness :
    (∃ t, fetchFileDataFromTar (fun bs => toString bs.length)
        [⟨"f", 48, 2, [7, 7]⟩, ⟨"d", 53, 0, []⟩] = .ok t
      ∧ ((([⟨"f", 48, 2, [7, 7]⟩, ⟨"d", 53, 0, []⟩] : List TarMember).map
            TarMember.name).Nodup →
          ∀ m ∈ ([⟨"f", 48, 2, [7, 7]⟩, ⟨"d", 53, 0, []⟩] : List TarMember),
            m.typeflag = tarTypeReg →
              List.lookup m.name t = some (toString m.content.length))
      ∧ (∀ p : String,
          (∀ m ∈ ([⟨"f", 48, 2, [7, 7]⟩, ⟨"d", 53, 0, []⟩] : List TarMember),
            m.typeflag = tarTypeReg → m.name ≠ p) →
          List.lookup p t = none))
    ∧ fetchFileDataFromTar (fun bs => toString bs.length)
        [⟨"g", 48, 5, [1]⟩] = .error ⟨"g", 5, 1⟩ :=
  ⟨(fetchFileDataFromTar_spec (fun bs => toString bs.length)
      [⟨"f", 48, 2, [7, 7]⟩, ⟨"d", 53, 0, []⟩]).2 (by decide),
   (fetchFileDataFromTar_spec (fun bs => toString bs.length)
      [⟨"g", 48, 5, [1]⟩]).1 ⟨"g", 48, 5, [1]⟩ (by decide)⟩

theorem buildChecksums_lengths (l : List (List String)) (acc t : Table)
    (h : buildChecksums l acc = .ok t) : ∀ r ∈ l, 2 ≤ r.length := by
  induction l generalizing acc with
  | nil => intro r hr; cases hr
  | cons r rest ih =>
    rcases r with _ | ⟨k, _ | ⟨v, r'⟩⟩
    · cases h
    · cases h
    · intro r hr
      rcases List.mem_cons.mp hr with hr | hr
      · subst hr
        simp
      · exact ih (mapUpd acc k v) h r hr

/-- One iteration of the checksum-loading loop: record `l` contributes the
binding `checksums[l[0]] = l[1]`. -/
def csvStep (acc : Table) (r : List String) : Table :=
  mapUpd acc (r.headD "") (r.getD 1 "")

theorem buildChecksums_eq_foldl (l : List (List String)) (acc : Table)
    (h : ∀ r ∈ l, 2 ≤ r.length) :
    buildChecksums l acc = .ok (l.foldl csvStep acc) := by
  induction l generalizing acc with
  | nil => rfl
  | cons r rest ih =>
    rcases r with _ | ⟨k, _ | ⟨v, r'⟩⟩
    · have := h [] (by simp)
      simp at this
    · have := h [k] (by simp)
      simp at this
    · rw [List.foldl_cons]
      show buildChecksums rest (mapUpd acc k v) = _
      exact ih _ (fun r hr => h r (by simp [hr]))

theorem lookup_foldl_csvStep (l : List (List String)) (acc : Table) (p : String) :
    List.lookup p (l.foldl csvStep acc) =
      match l.reverse.find? (fun r => r.headD "" == p) with
      | some r => some (r.getD 1 "")
      | none => List.lookup p acc := by
  induction l using List.reverseRecOn generalizing acc with
  | nil => rfl
  | append_singleton xs r ih =>
    rw [List.foldl_append, List.foldl_cons, List.foldl_nil, List.reverse_append]
    simp only [List.reverse_cons, List.reverse_nil, List.nil_append, List.singleton_append,
      List.find?_cons]
    rcases hp : (r.headD "" == p) with _ | _
    · have hne : p ≠ r.headD "" := by
        intro he
        rw [he] at hp
        simp at hp
      rw [csvStep, lookup_mapUpd, if_neg hne]
      exact ih acc
    · rw [csvStep, lookup_mapUpd, if_pos (beq_iff_eq.mp hp).symm]

/-- C10: when the same key occurs twice, the later occurrence wins.  The
fingerprint table maps a path to the digest of the last regular member
carrying that path (the first hit in the reversed member list), and the
loaded checksum table maps a path to the second field of the last record
whose first field is that path. -/
theorem duplicate_last_wins (digest : List Nat → String) (archive : List TarMember)
    (records : List (List String)) (p : String) :
    (∀ t, fetchFileDataFromTar digest archive = .ok t →
        List.lookup p t =
          match archive.reverse.find?
              (fun m => m.typeflag == tarTypeReg && m.name == p) with
          | some m => some (digest m.content)
          | none => none)
    ∧ (∀ t, loadFileData records = .ok t →
        List.lookup p t =
          match records.reverse.find? (fun r => r.headD "" == p) with
          | some r => some (r.getD 1 "")
          | none => none) := by
  constructor
  · intro t ht
    rcases hfind : archive.find? truncB with _ | m
    · rw [fetchFileDataFromTar, fetchGo_ok digest archive [] hfind] at ht
      have hfold := lookup_foldl_fetchStep digest archive [] p
      cases ht
      rcases hf : archive.reverse.find?
          (fun m => m.typeflag == tarTypeReg && m.name == p) with _ | m
      · rw [hf] at hfold
        rw [hf]
        exact hfold
      · rw [hf] at hfold
        rw [hf]
        exact hfold
    · rw [fetchFileDataFromTar, fetchGo_err digest archive [] m hfind] at ht
      cases ht
  · intro t ht
    rw [loadFileData] at ht
    by_cases hcsv : csvReadAllOK records = true
    · rw [if_pos hcsv] at ht
      have hlen := buildChecksums_lengths records [] t ht
      rw [buildChecksums_eq_foldl records [] hlen] at ht
      have hfold := lookup_foldl_csvStep records [] p
      cases ht
      rcases hf : records.reverse.find? (fun r => r.headD "" == p) with _ | r
      · rw [hf] at hfold
        rw [hf]
        exact hfold
      · rw [hf] at hfold
        rw [hf]
        exact hfold
    · rw [if_neg hcsv] at ht
      cases ht

/-- Witness for C10: an archive with two regular members named `a` maps
`a` to the digest of the second one, and a record file with two `a`
records maps `a` to the later record's digest; both hypotheses of
`duplicate_last_wins` are discharged on these concrete inputs. -/
theorem duplicate_last_wins_witness :
    (List.lookup "a" [("a", "2")] =
      match ([⟨"a", 48, 1, [1]⟩, ⟨"a", 48, 2, [2, 3]⟩] : List TarMember).reverse.find?
          (fun m => m.typeflag == tarTypeReg && m.name == "a") with
      | some m => some (toString m.content.length)
      | none => none)
    ∧ (List.lookup "a" [("a", "y")] =
      match ([["a", "x"], ["a", "y"]] : List (List String)).reverse.find?
          (fun r => r.headD "" == "a") with
      | some r => some (r.getD 1 "")
      | none => none) :=
  ⟨(duplicate_last_wins (fun bs => toString bs.length)
      [⟨"a", 48, 1, [1]⟩, ⟨"a", 48, 2, [2, 3]⟩] [["a", "x"], ["a", "y"]] "a").1
      [("a", "2")] rfl,
   (duplicate_last_wins (fun bs => toString bs.length)
      [⟨"a", 48, 1, [1]⟩, ⟨"a", 48, 2, [2, 3]⟩] [["a", "x"], ["a", "y"]] "a").2
      [("a", "y")] rfl⟩

/-! ## Filesystem model and `createDeltaBackup` -/

/-- Contents of a file in the modeled filesystem: a delta archive (its
member list), a newline-delimited path list, or an opaque text blob. -/
inductive FileData where
  | archive (members : List TarMember)
  | lines (paths : List String)
  | blob (text : String)
deriving DecidableEq, Repr

/-- The filesystem: a map from path to file contents. -/
abbrev FS := List (String × FileData)

/-- Models `os.Stat(p); err == nil`: the path exists. -/
def fsExists (fs : FS) (p : String) : Bool := (List.lookup p fs).isSome

/-- Creating or overwriting the file at `p`. -/
def fsWrite (fs : FS) (p : String) (d : FileData) : FS := mapUpd fs p d

/-- Models `os.Remove p`; the error returned when `p` is absent is ignored
by every caller in the program. -/
def fsRemove (fs : FS) (p : String) : FS := fs.filter (fun q => q.1 != p)

/-- The member-copy loop of `createDeltaBackup` (src/lxd-backup.go lines
633-656): a member whose path is a changed/added key is copied — header
and exact payload — into the output archive; other members are skipped.
A copied member whose payload byte count differs from the declared header
size hits `log.Fatalf` ("tar Input truncated!"), modeled as an error
carrying the members flushed so far (payload writes are modeled at member
granularity). -/
def copyChanged (filesChanged : List String) :
    List TarMember → List TarMember → Except (List TarMember) (List TarMember)
  | [], written => .ok written
  | m :: rest, written =>
    if filesChanged.contains m.name then
      if m.content.length ≠ m.size then .error written
      else copyChanged filesChanged rest (written ++ [m])
    else copyChanged filesChanged rest written

/-- `createDeltaBackup` (src/lxd-backup.go lines 589-667) as a filesystem
transformer.  If the destination exists the call returns at once, touching
nothing.  Otherwise the destination file is created (`os.OpenFile` with
`O_TRUNC|O_CREATE|O_WRONLY`), the changed members are copied into it, and
then the `.removed` manifest and the `.<profile>.profile` sidecar are
written.  `log.Fatalf` mid-copy exits the process with the partially
written destination left on disk (deferred closes never run), modeled as
`Except.error` carrying the filesystem state at exit. -/
def createDeltaBackup (fs : FS) (src : List TarMember) (filesChanged : List String)
    (filesRemoved : List String) (dest profileName profileData : String) :
    Except FS FS :=
  if fsExists fs dest then .ok fs
  else
    match copyChanged filesChanged src [] with
    | .error written => .error (fsWrite fs dest (.archive written))
    | .ok written =>
      let fs1 := fsWrite fs dest (.archive written)
      let fs2 := fsWrite fs1 (dest ++ ".removed") (.lines filesRemoved)
      .ok (fsWrite fs2 (dest ++ "." ++ profileName ++ ".profile") (.blob profileData))

theorem copyChanged_ok (fc : List String) (src acc : List TarMember)
    (h : ∀ m ∈ src, fc.contains m.name = true → m.content.length = m.size) :
    copyChanged fc src acc = .ok (acc ++ src.filter (fun m => fc.contains m.name)) := by
  induction src generalizing acc with
  | nil => simp [copyChanged]
  | cons m rest ih =>
    rcases hm : fc.contains m.name with _ | _
    · rw [copyChanged, if_neg (by rw [hm]; simp), List.filter_cons, hm]
      exact ih acc (fun m' hm' hc => h m' (by simp [hm']) hc)
    · rw [copyChanged, if_pos hm, if_neg (by simp [h m (by simp) hm]),
        List.filter_cons, hm]
      rw [ih (acc ++ [m]) (fun m' hm' hc => h m' (by simp [hm']) hc)]
      simp

theorem ne_of_longer {a b : String} (h : a.length < b.length) : b ≠ a := by
  intro he
  rw [he] at h
  exact absurd h (lt_irrefl _)

theorem removed_path_ne (dest : String) : dest ++ ".removed" ≠ dest :=
  ne_of_longer (by
    rw [String.length_append]
    have : (".removed" : String).length = 8 := rfl
    omega)

theorem profile_path_ne (dest pn : String) : dest ++ "." ++ pn ++ ".profile" ≠ dest :=
  ne_of_longer (by
    rw [String.length_append, String.length_append, String.length_append]
    have h1 : ("." : String).length = 1 := rfl
    have h2 : (".profile" : String).length = 8 := rfl
    omega)

/-- C3: when the destination does not yet exist and the copied members are
well-formed, the delta archive written at the destination contains exactly
the source members whose paths are changed/added keys, in source order,
each copied verbatim. -/
theorem createDeltaBackup_minimal (fs : FS) (src : List TarMember)
    (fc fr : List String) (dest pn pd : String)
    (hne : fsExists fs dest = false)
    (hok : ∀ m ∈ src, fc.contains m.name = true → m.content.length = m.size) :
    ∃ fs', createDeltaBackup fs src fc fr dest pn pd = .ok fs'
      ∧ List.lookup dest fs'
          = some (.archive (src.filter (fun m => fc.contains m.name))) := by
  rw [createDeltaBackup, if_neg (by simp [hne]), copyChanged_ok fc src [] hok]
  refine ⟨_, rfl, ?_⟩
  rw [fsWrite, fsWrite, fsWrite, lookup_mapUpd,
    if_neg (fun he => profile_path_ne dest pn he.symm), lookup_mapUpd,
    if_neg (fun he => removed_path_ne dest he.symm), lookup_mapUpd, if_pos rfl]
  simp

/-- Witness for C3: building a delta of a two-member archive where only
`b` changed materializes an archive holding exactly the member `b`. -/
theorem createDeltaBackup_minimal_witness :
    ∃ fs', createDeltaBackup [] [⟨"a", 48, 1, [9]⟩, ⟨"b", 48, 2, [5, 6]⟩]
        ["b"] [] "dest" "p" "pd" = .ok fs'
      ∧ List.lookup "dest" fs'
          = some (.archive (([⟨"a", 48, 1, [9]⟩, ⟨"b", 48, 2, [5, 6]⟩] :
              List TarMember).filter (fun m => List.contains ["b"] m.name))) :=
  createDeltaBackup_minimal [] [⟨"a", 48, 1, [9]⟩, ⟨"b", 48, 2, [5, 6]⟩]
    ["b"] [] "dest" "p" "pd" rfl (by decide)

/-- C4: when the destination already exists, `createDeltaBackup` is a
no-op — the filesystem (destination, manifest and profile siblings
included) is returned unchanged — and a repeated call with the same
arguments returns the same state, leaving the destination byte-identical
to the first call's output. -/
theorem createDeltaBackup_existing_noop (fs : FS) (src : List TarMember)
    (fc fr : List String) (dest pn pd : String)
    (h : fsExists fs dest = true) :
    createDeltaBackup fs src fc fr dest pn pd = .ok fs
    ∧ ∀ fs', createDeltaBackup fs src fc fr dest pn pd = .ok fs' →
        createDeltaBackup fs' src fc fr dest pn pd = .ok fs' := by
  have h1 : createDeltaBackup fs src fc fr dest pn pd = .ok fs := by
    rw [createDeltaBackup, if_pos h]
  refine ⟨h1, ?_⟩
  intro fs' hfs'
  rw [h1] at hfs'
  cases hfs'
  exact h1

/-- Witness for C4: with the destination already present, the call returns
the filesystem unchanged, twice. -/
theorem createDeltaBackup_existing_noop_witness :
    createDeltaBackup [("dest", FileData.blob "old")] [⟨"a", 48, 1, [9]⟩]
        ["a"] [] "dest" "p" "pd" = .ok [("dest", FileData.blob "old")]
    ∧ ∀ fs', createDeltaBackup [("dest", FileData.blob "old")] [⟨"a", 48, 1, [9]⟩]
        ["a"] [] "dest" "p" "pd" = .ok fs' →
        createDeltaBackup fs' [⟨"a", 48, 1, [9]⟩] ["a"] [] "dest" "p" "pd" = .ok fs' :=
  createDeltaBackup_existing_noop [("dest", FileData.blob "old")] [⟨"a", 48, 1, [9]⟩]
    ["a"] [] "dest" "p" "pd" rfl

/-- C6 counterexample: copying a member whose payload is shorter than its
declared size aborts after the destination file has been created, leaving
a half-written destination in place; the next call's existence check then
treats the bucket as already built.  This refutes the claim that no error
path can leave such a file behind. -/
theorem createDeltaBackup_partial_left_behind :
    createDeltaBackup [] [⟨"f", 48, 5, [1, 2, 3]⟩] ["f"] [] "dest" "p" "pd"
      = .error [("dest", FileData.archive [])]
    ∧ fsExists [("dest", FileData.archive [])] "dest" = true
    ∧ createDeltaBackup [("dest", FileData.archive [])] [⟨"f", 48, 5, [1, 2, 3]⟩]
        ["f"] [] "dest" "p" "pd" = .ok [("dest", FileData.archive [])] :=
  ⟨rfl, rfl, rfl⟩

/-- C6 amended: every failing delta write leaves the destination present
(holding the members flushed before the failure), and a later
`createDeltaBackup` call on the resulting state treats the bucket as
already built; complete-or-absent holds only on the success path. -/
theorem createDeltaBackup_error_leaves_dest (fs : FS) (src : List TarMember)
    (fc fr : List String) (dest pn pd : String) (fsErr : FS)
    (h : createDeltaBackup fs src fc fr dest pn pd = .error fsErr) :
    fsExists fsErr dest = true
    ∧ createDeltaBackup fsErr src fc fr dest pn pd = .ok fsErr := by
  rw [createDeltaBackup] at h
  by_cases hex : fsExists fs dest = true
  · rw [if_pos hex] at h
    cases h
  · rw [if_neg hex] at h
    rcases hc : copyChanged fc src [] with w | w
    · rw [hc] at h
      cases h
      have hex2 : fsExists (fsWrite fs dest (.archive w)) dest = true := by
        rw [fsExists, fsWrite, lookup_mapUpd, if_pos rfl]
        rfl
      exact ⟨hex2, by rw [createDeltaBackup, if_pos hex2]⟩
    · rw [hc] at h
      cases h

/-- Witness for C6 (amended): applying the amended theorem to the concrete
failing build shows the stranded destination is treated as built. -/
theorem createDeltaBackup_error_leaves_dest_witness :
    fsExists [("dest", FileData.archive [])] "dest" = true
    ∧ createDeltaBackup [("dest", FileData.archive [])] [⟨"f", 48, 5, [1, 2, 3]⟩]
        ["f"] [] "dest" "q" "qd" = .ok [("dest", FileData.archive [])] :=
  createDeltaBackup_error_leaves_dest [] [⟨"f", 48, 5, [1, 2, 3]⟩] ["f"] []
    "dest" "q" "qd" [("dest", FileData.archive [])] rfl

/-! ## Retention rotation: bucket names and the delta phase of `main` -/

/-- The calendar fields of "now" that `main` reads (src/lxd-backup.go
lines 809-815, 886-892): `Year()`, `Month()` (1-12), `Day()` (1-31),
`Weekday()` (0 = Sunday), and the ISO week number. -/
structure Date where
  year : Nat
  month : Nat
  day : Nat
  weekday : Nat
  isoWeek : Nat
deriving DecidableEq, Repr

/-- The `quarter` slot suffix (line 812):
`fmt.Sprintf("-Q%d%d.tar.zst", now.Year(), now.Month()/4)`. -/
def quarterName (now : Date) : String :=
  "-Q" ++ toString now.year ++ toString (now.month / 4) ++ ".tar.zst"

/-- The `monthDelta` slot suffix (line 813): `-M%d-delta.tar.zst` with the
month number. -/
def monthDeltaName (now : Date) : String :=
  "-M" ++ toString now.month ++ "-delta.tar.zst"

/-- The `weekDelta` slot suffix (line 814): `-WN%d-delta.tar.zst` with the
ISO week number modulo 4. -/
def weekDeltaName (now : Date) : String :=
  "-WN" ++ toString (now.isoWeek % 4) ++ "-delta.tar.zst"

/-- The `dayDelta` slot suffix (line 815): `-WD%d-delta.tar.zst` with the
weekday number (0 = Sunday). -/
def dayDeltaName (now : Date) : String :=
  "-WD" ++ toString now.weekday ++ "-delta.tar.zst"

/-- The eviction block of `main` (src/lxd-backup.go lines 886-892): on the
first day of the month the month slot is deleted, on Monday the week slot
is deleted, and the day slot is deleted on every pass through this
block. -/
def evictBuckets (now : Date) (pfx : String) (fs : FS) : FS :=
  let fs1 := if now.day == 1 then fsRemove fs (pfx ++ monthDeltaName now) else fs
  let fs2 := if now.weekday == 1 then fsRemove fs1 (pfx ++ weekDeltaName now) else fs1
  fsRemove fs2 (pfx ++ dayDeltaName now)

/-- The per-container delta phase of `main` (src/lxd-backup.go lines
880-901): when the diff is empty only a "No changes" log line is written
and the loop continues to the next container — no eviction and no build;
otherwise the stale bucket slots are evicted, the three delta builds run
against the same diff, and a status log line is written.  `pfx` stands for
`lxdBackupPrefix + c.name`. -/
def deltaPhase (now : Date) (pfx : String) (filesChangedAdded filesRemoved : List String)
    (exportMembers : List TarMember) (profileName profileData : String) (fs : FS) :
    Except FS FS :=
  if filesChangedAdded.isEmpty && filesRemoved.isEmpty then
    .ok (fsWrite fs (pfx ++ ".log") (.blob "No changes"))
  else
    match createDeltaBackup (evictBuckets now pfx fs) exportMembers filesChangedAdded
        filesRemoved (pfx ++ monthDeltaName now) profileName profileData with
    | .error e => .error e
    | .ok fsM =>
      match createDeltaBackup fsM exportMembers filesChangedAdded filesRemoved
          (pfx ++ weekDeltaName now) profileName profileData with
      | .error e => .error e
      | .ok fsW =>
        match createDeltaBackup fsW exportMembers filesChangedAdded filesRemoved
            (pfx ++ dayDeltaName now) profileName profileData with
        | .error e => .error e
        | .ok fsD =>
          .ok (fsWrite fsD (pfx ++ ".log")
            (.blob (toString filesChangedAdded.length ++ " files changed/added, "
              ++ toString filesRemoved.length ++ " removed.")))

theorem lookup_fsRemove (fs : FS) (p q : String) :
    List.lookup p (fsRemove fs q) = if p = q then none else List.lookup p fs := by
  induction fs with
  | nil =>
    by_cases h : p = q <;> simp [fsRemove, h, List.lookup]
  | cons r l ih =>
    rw [fsRemove] at ih ⊢
    rw [List.filter_cons]
    rcases hr : (r.1 != q) with _ | _
    · have hrq : r.1 = q := by simpa using hr
      rw [if_neg (by simp), ih]
      by_cases hpq : p = q
      · rw [if_pos hpq, if_pos hpq]
      · rw [if_neg hpq, if_neg hpq]
        have hpr : p ≠ r.1 := fun he => hpq (he.trans hrq)
        simp only [List.lookup, beq_eq_false_iff_ne.mpr hpr]
    · have hrq : r.1 ≠ q := by simpa using hr
      rw [if_pos rfl]
      by_cases hpr : p = r.1
      · have hpq : p ≠ q := fun he => hrq (hpr ▸ he)
        simp only [List.lookup, beq_iff_eq.mpr hpr, if_neg hpq]
      · simp only [List.lookup, beq_eq_false_iff_ne.mpr hpr]
        rw [ih]

theorem fsExists_fsRemove_self (fs : FS) (p : String) :
    fsExists (fsRemove fs p) p = false := by
  rw [fsExists, lookup_fsRemove, if_pos rfl]
  rfl

theorem fsExists_fsRemove_of_false {fs : FS} {p : String} (q : String)
    (h : fsExists fs p = false) : fsExists (fsRemove fs q) p = false := by
  rw [fsExists, lookup_fsRemove]
  by_cases hpq : p = q
  · rw [if_pos hpq]
    rfl
  · rw [if_neg hpq]
    exact h

/-- C5 counterexample: a run on the first day of a month whose diff is
empty leaves the month bucket's prior file exactly where it was — only the
"No changes" log is written — refuting the claim that bucket eviction
happens on every run regardless of the diff contents. -/
theorem deltaPhase_emptyDiff_noEviction :
    (⟨2024, 11, 1, 5, 44⟩ : Date).day = 1
    ∧ deltaPhase ⟨2024, 11, 1, 5, 44⟩ "lxd-backup-c" [] [] [] "p" "pd"
        [("lxd-backup-c-M11-delta.tar.zst", FileData.blob "old")]
      = .ok [("lxd-backup-c-M11-delta.tar.zst", FileData.blob "old"),
             ("lxd-backup-c.log", FileData.blob "No changes")]
    ∧ fsExists [("lxd-backup-c-M11-delta.tar.zst", FileData.blob "old"),
             ("lxd-backup-c.log", FileData.blob "No changes")]
        ("lxd-backup-c" ++ monthDeltaName ⟨2024, 11, 1, 5, 44⟩) = true :=
  ⟨rfl, rfl, rfl⟩

/-- C5 amended: on a run whose diff is non-empty, eviction follows the
calendar alone — the day slot is evicted unconditionally, the month slot
whenever the run falls on the first day of the month, and the week slot
whenever the run falls on the rollover weekday; on a run whose diff is
empty nothing is evicted or built, and only a "No changes" log is
written. -/
theorem deltaPhase_eviction_amended (now : Date) (pfx : String)
    (changed removed : List String) (mem : List TarMember) (pn pd : String) (fs : FS) :
    ((changed.isEmpty && removed.isEmpty) = true →
        deltaPhase now pfx changed removed mem pn pd fs
          = .ok (fsWrite fs (pfx ++ ".log") (.blob "No changes")))
    ∧ fsExists (evictBuckets now pfx fs) (pfx ++ dayDeltaName now) = false
    ∧ (now.day = 1 →
        fsExists (evictBuckets now pfx fs) (pfx ++ monthDeltaName now) = false)
    ∧ (now.weekday = 1 →
        fsExists (evictBuckets now pfx fs) (pfx ++ weekDeltaName now) = false) := by
  refine ⟨?_, ?_, ?_, ?_⟩
  · intro h
    rw [deltaPhase, if_pos h]
  · rw [evictBuckets]
    exact fsExists_fsRemove_self _ _
  · intro hday
    rw [evictBuckets]
    apply fsExists_fsRemove_of_false
    by_cases hwd : now.weekday = 1
    · rw [if_pos (by simp [hwd])]
      apply fsExists_fsRemove_of_false
      rw [if_pos (by simp [hday])]
      exact fsExists_fsRemove_self _ _
    · rw [if_neg (by simp [hwd])]
      rw [if_pos (by simp [hday])]
      exact fsExists_fsRemove_self _ _
  · intro hwd
    rw [evictBuckets]
    apply fsExists_fsRemove_of_false
    rw [if_pos (by simp [hwd])]
    exact fsExists_fsRemove_self _ _

/-- Witness for C5 (amended): a first-of-month Monday run with an empty
diff, discharging every hypothesis of the amended eviction theorem. -/
theorem deltaPhase_eviction_amended_witness :
    deltaPhase ⟨2024, 11, 1, 1, 44⟩ "x" [] [] [] "p" "pd" []
      = .ok (fsWrite [] ("x" ++ ".log") (.blob "No changes"))
    ∧ fsExists (evictBuckets ⟨2024, 11, 1, 1, 44⟩ "x" [])
        ("x" ++ dayDeltaName ⟨2024, 11, 1, 1, 44⟩) = false
    ∧ fsExists (evictBuckets ⟨2024, 11, 1, 1, 44⟩ "x" [])
        ("x" ++ monthDeltaName ⟨2024, 11, 1, 1, 44⟩) = false
    ∧ fsExists (evictBuckets ⟨2024, 11, 1, 1, 44⟩ "x" [])
        ("x" ++ weekDeltaName ⟨2024, 11, 1, 1, 44⟩) = false := by
  obtain ⟨h1, h2, h3, h4⟩ :=
    deltaPhase_eviction_amended ⟨2024, 11, 1, 1, 44⟩ "x" [] [] [] "p" "pd" []
  exact ⟨h1 rfl, h2, h3 rfl, h4 rfl⟩

/-- Modelled from the spec: the quarter-of-year of a month number — months
1-3 map to quarter 1, 4-6 to 2, 7-9 to 3, 10-12 to 4. -/
def quarterOfYear (month : Nat) : Nat := (month + 2) / 3

/-- C7 (code bug): the quarter key is built from `now.Month()/4`, which is
not quarter-of-year — April (second quarter) and July (third quarter)
share key 1, while July and September, both in the third calendar quarter,
receive different keys.  The key therefore neither joins all dates of one
calendar quarter nor separates dates of different quarters. -/
theorem quarterName_not_calendar_quarter :
    quarterName ⟨2022, 4, 1, 0, 1⟩ = quarterName ⟨2022, 7, 1, 0, 1⟩
    ∧ quarterOfYear 4 ≠ quarterOfYear 7
    ∧ quarterName ⟨2022, 7, 1, 0, 1⟩ ≠ quarterName ⟨2022, 9, 1, 0, 1⟩
    ∧ quarterOfYear 7 = quarterOfYear 9 :=
  ⟨rfl, by decide, by decide, rfl⟩

end LxdBackup
